import Mathlib

/-!
Verification of the nucleosome-occupancy engine
(`nucleosome_occupancy/calculatensm_multithread.py`).

The engine computes Gaussian-kernel-smoothed nucleosome occupancy from
per-chromosome dyad events `(position, weight)`.  The file below embeds the
engine's functions shallowly:

* `process_chunk` mirrors the Python worker `process_chunk`: for each target
  position of a chunk it masks the chunk's event context to the window
  `[pos - window_size, pos + window_size]`, and, when the mask selects at
  least one event, emits `(pos, Σ weight * exp (-((event - pos)/20)^2 / 2))`.
* `expandAndProcess` / `chunkedResults` mirror the chunk construction in
  `calculate_nsm_occupancy`: each chunk's event context is the full series
  masked to `[min_pos - 73, max_pos + 73]`.
* `sliceChunks` / `chunkTargets` mirror the slicing
  `positions[i : i + positions_per_chunk]` for `i in range(0, n, ppc)` with
  `ppc = max 1000 (n // n_cores)`.
* `sortResults` / `aggregate` mirror `all_results.sort(key=lambda x: x[0])`
  over the concatenation of worker results in arbitrary arrival order.
* `parseLine` / `loadEvents` / `runMain` mirror `main`: line parsing by
  unpacking into exactly three whitespace fields (numeric parsing of the
  two numeric fields is abstracted into the parameters `parseI`, `parseF`,
  standing for Python's `int`/`float` constructors), accumulation of all
  events into a single positions/values pair with the chromosome label
  overwritten per line, and the final `if pos_lst and val_lst` guard.

Machine floats of the source are modelled as real numbers.
-/

namespace NSM

/-- The Gaussian kernel factor of the worker:
`np.exp(-np.power(diffs/20, 2)/2)` for one difference `d = event - pos`. -/
noncomputable def gaussTerm (d : ℤ) : ℝ :=
  Real.exp (-(((d : ℝ) / 20) ^ 2) / 2)

/-- The events the window mask keeps for a target `pos`:
`(pos_array >= pos - window_size) & (pos_array <= pos + window_size)` applied
to the parallel arrays, represented as the filtered zip. -/
def relevantEvents (positions : List ℤ) (values : List ℝ) (pos window_size : ℤ) :
    List (ℤ × ℝ) :=
  (positions.zip values).filter fun e =>
    decide (pos - window_size ≤ e.1 ∧ e.1 ≤ pos + window_size)

/-- The vectorized score of the worker at one target:
`np.sum(relevant_val * np.exp(-np.power((relevant_pos - pos)/20, 2)/2))`. -/
noncomputable def kernelScore (positions : List ℤ) (values : List ℝ)
    (pos window_size : ℤ) : ℝ :=
  ((relevantEvents positions values pos window_size).map fun e =>
    e.2 * gaussTerm (e.1 - pos)).sum

/-- The worker `process_chunk`: one result pair per target position whose
window mask selects at least one event (`if len(relevant_pos) > 0`);
targets with an empty window produce no pair. -/
noncomputable def process_chunk (positions : List ℤ) (values : List ℝ)
    (chunk_positions : List ℤ) (window_size : ℤ) : List (ℤ × ℝ) :=
  chunk_positions.filterMap fun pos =>
    if (relevantEvents positions values pos window_size).length > 0 then
      some (pos, kernelScore positions values pos window_size)
    else
      none

/-- The constant `WINDOW_SIZE = 73` of `calculate_nsm_occupancy`. -/
def WINDOW_SIZE : ℤ := 73

/-- One chunk of `calculate_nsm_occupancy`: the event context is the full
series masked to `[min_pos - W, max_pos + W]` (`overlap_mask`), the masked
parallel arrays are handed to the worker together with the chunk's targets. -/
noncomputable def expandAndProcess (positions : List ℤ) (values : List ℝ)
    (chunk_positions : List ℤ) (W : ℤ) : List (ℤ × ℝ) :=
  let min_pos := chunk_positions.headD 0
  let max_pos := chunk_positions.getLastD 0
  let ctx := (positions.zip values).filter fun e =>
    decide (min_pos - W ≤ e.1 ∧ e.1 ≤ max_pos + W)
  process_chunk (ctx.map Prod.fst) (ctx.map Prod.snd) chunk_positions W

/-- All worker results in dispatch order: the concatenation of
`process_chunk` over the expanded chunks. -/
noncomputable def chunkedResults (positions : List ℤ) (values : List ℝ)
    (chunks : List (List ℤ)) (W : ℤ) : List (ℤ × ℝ) :=
  (chunks.map fun cp => expandAndProcess positions values cp W).flatten

/-- The target slicing `positions[i:i + size]` for `i in range(0, n, size)`. -/
def sliceChunks (positions : List ℤ) (size : ℕ) : List (List ℤ) :=
  match positions with
  | [] => []
  | p :: rest =>
    if h : size = 0 then []
    else (p :: rest).take size :: sliceChunks ((p :: rest).drop size) size
termination_by positions.length
decreasing_by simp [List.length_drop]; omega

/-- The chunk target lists of `calculate_nsm_occupancy`:
`positions_per_chunk = max(1000, n_positions // n_cores)` and slicing. -/
def chunkTargets (positions : List ℤ) (n_cores : ℕ) : List (List ℤ) :=
  sliceChunks positions (max 1000 (positions.length / n_cores))

/-- The per-chunk result lists of one run, in dispatch order. -/
noncomputable def chunkResultLists (positions : List ℤ) (values : List ℝ)
    (n_cores : ℕ) : List (List (ℤ × ℝ)) :=
  (chunkTargets positions n_cores).map fun cp =>
    expandAndProcess positions values cp WINDOW_SIZE

/-- The aggregator's sort: `all_results.sort(key=lambda x: x[0])` — a stable
sort whose key is the position alone. -/
def sortResults (l : List (ℤ × ℝ)) : List (ℤ × ℝ) :=
  l.mergeSort fun a b => decide (a.1 ≤ b.1)

/-- The aggregator: worker result lists in their arrival order are
concatenated (`all_results.extend`) and sorted by position. -/
def aggregate (arrived : List (List (ℤ × ℝ))) : List (ℤ × ℝ) :=
  arrived.flatten |> sortResults

/-- The computation of `calculate_nsm_occupancy` without the I/O: chunk, process every chunk,
aggregate.  (`imap_unordered` may deliver the per-chunk lists in any order;
the dispatch order used here is one such order, and arrival-order
independence is proved separately over `aggregate`.) -/
noncomputable def calculate_nsm_occupancy (positions : List ℤ) (values : List ℝ)
    (n_cores : ℕ) : List (ℤ × ℝ) :=
  aggregate (chunkResultLists positions values n_cores)

/-- The output lines `f"{chr_name}\t{pos-1}\t{pos}\t\t{score}"` as tuples. -/
def writeOutput (chr_name : String) (results : List (ℤ × ℝ)) :
    List (String × ℤ × ℤ × ℝ) :=
  results.map fun r => (chr_name, r.1 - 1, r.1, r.2)

/-- The error taxonomy of the specification.  The loader's only parse
failure (`MalformedRecordError`) and the empty-input condition
(`EmptyInputError`). -/
inductive LoadError where
  | malformedRecord
  | emptyInput
deriving DecidableEq

/-- One line of `main`'s loop: `chr_name, dyad, score = line.strip().split()`
(exactly three whitespace-separated fields, else the unpacking fails) followed
by `int(dyad)` and `float(score)` (abstracted as `parseI`, `parseF`). -/
def parseLine (parseI : String → Option ℤ) (parseF : String → Option ℝ)
    (fields : List String) : Option (String × ℤ × ℝ) :=
  match fields with
  | [c, d, s] =>
    match parseI d, parseF s with
    | some dv, some sv => some (c, dv, sv)
    | _, _ => none
  | _ => none

/-- One iteration of `main`'s reading loop: a parsed line overwrites
`chr_name` and appends to `pos_lst` and `val_lst`; a malformed line raises
(modelled as the `MalformedRecordError` of the specification). -/
def loadStep (parseI : String → Option ℤ) (parseF : String → Option ℝ)
    (st : Option String × List ℤ × List ℝ) (fields : List String) :
    Except LoadError (Option String × List ℤ × List ℝ) :=
  match parseLine parseI parseF fields with
  | some (c, d, s) => Except.ok (some c, st.2.1 ++ [d], st.2.2 ++ [s])
  | none => Except.error LoadError.malformedRecord

/-- The reading loop of `main` over all lines, starting from
`chr_name = None`, `pos_lst = []`, `val_lst = []`. -/
def loadEvents (parseI : String → Option ℤ) (parseF : String → Option ℝ)
    (lines : List (List String)) :
    Except LoadError (Option String × List ℤ × List ℝ) :=
  lines.foldlM (loadStep parseI parseF) (none, [], [])

/-- The whole of `main`: load, then `if pos_lst and val_lst:` compute and
write, else fall through silently (no output file, successful exit). -/
noncomputable def runMain (parseI : String → Option ℤ)
    (parseF : String → Option ℝ) (lines : List (List String)) (n_cores : ℕ) :
    Except LoadError (Option (List (String × ℤ × ℤ × ℝ))) :=
  match loadEvents parseI parseF lines with
  | Except.error e => Except.error e
  | Except.ok (chr_name, pos_lst, val_lst) =>
    if pos_lst ≠ [] ∧ val_lst ≠ [] then
      Except.ok (some (writeOutput (chr_name.getD "")
        (calculate_nsm_occupancy pos_lst val_lst n_cores)))
    else
      Except.ok none

/-- A concrete position parser used by the concrete input instances below
(Python's `int` on the specific dyad fields appearing there). -/
def sampleParseI : String → Option ℤ := fun s =>
  if s = "1" then some 1 else if s = "5" then some 5 else none

/-- A concrete weight parser used by the concrete input instances below. -/
def sampleParseF : String → Option ℝ := fun _ => some 0

/-! ### The window mask -/

/-- The two-sided mask of the worker is the inclusive distance-`W` window. -/
lemma relevantEvents_abs (positions : List ℤ) (values : List ℝ) (p W : ℤ) :
    relevantEvents positions values p W =
      (positions.zip values).filter fun e => decide (|e.1 - p| ≤ W) := by
  unfold relevantEvents
  apply List.filter_congr
  intro e _
  apply decide_eq_decide.mpr
  rw [abs_le]
  omega

/-- Appending one event to aligned series either appends it to the window
selection (when it is in range) or leaves the selection unchanged. -/
lemma relevantEvents_append (positions : List ℤ) (values : List ℝ) (q : ℤ)
    (w : ℝ) (p W : ℤ) (hlen : positions.length = values.length) :
    relevantEvents (positions ++ [q]) (values ++ [w]) p W =
      relevantEvents positions values p W ++
        (if p - W ≤ q ∧ q ≤ p + W then [(q, w)] else []) := by
  unfold relevantEvents
  rw [List.zip_append hlen, List.filter_append]
  congr 1
  simp only [List.zip_cons_cons, List.zip_nil_left, List.filter_cons,
    List.filter_nil, decide_eq_true_eq]

/-- The event appended to aligned series adds its own kernel term to the
score when it is in range, and adds nothing when it is out of range. -/
lemma kernelScore_append (positions : List ℤ) (values : List ℝ) (q : ℤ)
    (w : ℝ) (p W : ℤ) (hlen : positions.length = values.length) :
    kernelScore (positions ++ [q]) (values ++ [w]) p W =
      kernelScore positions values p W +
        (if p - W ≤ q ∧ q ≤ p + W then w * gaussTerm (q - p) else 0) := by
  unfold kernelScore
  rw [relevantEvents_append positions values q w p W hlen, List.map_append,
    List.sum_append]
  congr 1
  by_cases h : p - W ≤ q ∧ q ≤ p + W
  · rw [if_pos h, if_pos h]; simp
  · rw [if_neg h, if_neg h]; simp

/-- C2. Kernel evaluation: the score at a target `p` is the sum of
`weight * exp (-((event - p)/20)^2/2)` over exactly the events at distance
`≤ 73` from `p`; an event at distance exactly `73` is included and its term
is nonzero whenever its weight is, while an event at distance `74`
contributes exactly `0` (the score is unchanged by its presence). -/
theorem kernel_evaluation_window (positions : List ℤ) (values : List ℝ)
    (p q73 q74 : ℤ) (w73 w74 : ℝ)
    (hlen : positions.length = values.length)
    (h73 : |q73 - p| = 73) (h74 : |q74 - p| = 74) (hw : w73 ≠ 0) :
    kernelScore positions values p 73 =
      (((positions.zip values).filter fun e => decide (|e.1 - p| ≤ 73)).map
        fun e => e.2 * gaussTerm (e.1 - p)).sum ∧
    kernelScore (positions ++ [q73]) (values ++ [w73]) p 73 =
      kernelScore positions values p 73 + w73 * gaussTerm (q73 - p) ∧
    w73 * gaussTerm (q73 - p) ≠ 0 ∧
    kernelScore (positions ++ [q74]) (values ++ [w74]) p 73 =
      kernelScore positions values p 73 := by
  have h73' : q73 = p + 73 ∨ q73 = p - 73 := by
    rcases abs_eq (by norm_num : (0 : ℤ) ≤ 73) |>.mp h73 with h | h
    · exact Or.inl (by omega)
    · exact Or.inr (by omega)
  have h74' : q74 = p + 74 ∨ q74 = p - 74 := by
    rcases abs_eq (by norm_num : (0 : ℤ) ≤ 74) |>.mp h74 with h | h
    · exact Or.inl (by omega)
    · exact Or.inr (by omega)
  refine ⟨?_, ?_, ?_, ?_⟩
  · rw [kernelScore, relevantEvents_abs]
  · rw [kernelScore_append positions values q73 w73 p 73 hlen,
      if_pos (by omega)]
  · exact mul_ne_zero hw (Real.exp_ne_zero _)
  · rw [kernelScore_append positions values q74 w74 p 73 hlen,
      if_neg (by omega), add_zero]

/-- C2 witness. The theorem at the empty context with events at
distances exactly 73 and 74 from target 0. -/
theorem kernel_evaluation_window_witness :
    kernelScore [] [] 0 73 =
      ((([] : List ℤ).zip ([] : List ℝ)).filter
        (fun e => decide (|e.1 - 0| ≤ 73)) |>.map
          fun e => e.2 * gaussTerm (e.1 - 0)).sum ∧
    kernelScore ([] ++ [73]) ([] ++ [1]) 0 73 =
      kernelScore [] [] 0 73 + 1 * gaussTerm (73 - 0) ∧
    (1 : ℝ) * gaussTerm (73 - 0) ≠ 0 ∧
    kernelScore ([] ++ [74]) ([] ++ [1]) 0 73 = kernelScore [] [] 0 73 :=
  kernel_evaluation_window [] [] 0 73 74 1 1 rfl (by decide) (by decide)
    one_ne_zero

/-! ### What the worker emits per target -/

/-- The worker's full behaviour: one pair `(p, score)` per target whose
window selects at least one event, in target order; targets whose window is
empty are omitted. -/
lemma process_chunk_eq (positions : List ℤ) (values : List ℝ)
    (chunk_positions : List ℤ) (W : ℤ) :
    process_chunk positions values chunk_positions W =
      (chunk_positions.filter fun p =>
          !(relevantEvents positions values p W).isEmpty).map
        fun p => (p, kernelScore positions values p W) := by
  induction chunk_positions with
  | nil => rfl
  | cons p rest ih =>
    rw [process_chunk] at ih ⊢
    rw [List.filterMap_cons, List.filter_cons]
    cases hre : relevantEvents positions values p W with
    | nil => simpa [hre] using ih
    | cons e es => simpa [hre] using ih

/-- C3 counterexample. A target (200) whose window holds no event of
its context (the single event sits at 0, distance 200 > 73): the worker
emits nothing for it, not the pair `(200, 0)`. -/
theorem zero_event_counterexample :
    process_chunk [0] [1] [200] 73 = [] ∧
      process_chunk [0] [1] [200] 73 ≠ [(200, 0)] := by
  have h : process_chunk [0] [1] [200] 73 = [] := by
    rw [process_chunk_eq]
    simp [relevantEvents]
  exact ⟨h, by rw [h]; simp⟩

/-- C3 amended. The kernel evaluator emits one pair per target position
whose window selects at least one event, in input order, carrying the
target and its kernel score; a target with no event within the window is
omitted from the results (no `(p, 0)` pair is emitted for it). -/
theorem zero_event_amended (positions : List ℤ) (values : List ℝ)
    (chunk_positions : List ℤ) (W : ℤ) :
    process_chunk positions values chunk_positions W =
      (chunk_positions.filter fun p =>
          !(relevantEvents positions values p W).isEmpty).map
        fun p => (p, kernelScore positions values p W) :=
  process_chunk_eq positions values chunk_positions W

/-! ### The loader -/

/-- From any intermediate state, the reading loop aborts with the
malformed-record error exactly when one of the remaining lines fails to
parse. -/
lemma foldlM_loadStep_error (parseI : String → Option ℤ)
    (parseF : String → Option ℝ) :
    ∀ (lines : List (List String)) (init : Option String × List ℤ × List ℝ),
      lines.foldlM (loadStep parseI parseF) init =
          Except.error LoadError.malformedRecord ↔
        ∃ l ∈ lines, parseLine parseI parseF l = none := by
  intro lines
  induction lines with
  | nil =>
    intro init
    constructor
    · intro h
      exact Except.noConfusion h
    · rintro ⟨l, hl, -⟩
      cases hl
  | cons l ls ih =>
    intro init
    rw [List.foldlM_cons]
    cases hpl : parseLine parseI parseF l with
    | none =>
      have hstep : loadStep parseI parseF init l =
          Except.error LoadError.malformedRecord := by
        simp [loadStep, hpl]
      rw [hstep]
      have hbind : (Except.error LoadError.malformedRecord >>=
            fun st => ls.foldlM (loadStep parseI parseF) st) =
          (Except.error LoadError.malformedRecord :
            Except LoadError (Option String × List ℤ × List ℝ)) := rfl
      rw [hbind]
      constructor
      · intro _
        exact ⟨l, List.mem_cons_self l ls, hpl⟩
      · intro _
        rfl
    | some v =>
      obtain ⟨c, d, s⟩ := v
      have hstep : loadStep parseI parseF init l =
          Except.ok (some c, init.2.1 ++ [d], init.2.2 ++ [s]) := by
        simp [loadStep, hpl]
      rw [hstep]
      have hbind : (Except.ok (some c, init.2.1 ++ [d], init.2.2 ++ [s]) >>=
            fun st => ls.foldlM (loadStep parseI parseF) st) =
          ls.foldlM (loadStep parseI parseF)
            (some c, init.2.1 ++ [d], init.2.2 ++ [s]) := rfl
      rw [hbind, ih]
      constructor
      · rintro ⟨l', hl', hpl'⟩
        exact ⟨l', List.mem_cons_of_mem l hl', hpl'⟩
      · rintro ⟨l', hl', hpl'⟩
        rcases List.mem_cons.mp hl' with rfl | hmem
        · rw [hpl] at hpl'
          cases hpl'
        · exact ⟨l', hmem, hpl'⟩

/-- Function `main` propagates the loader's abort unchanged: the run fails with the
malformed-record error exactly when the loader does (no output is
produced on that path). -/
lemma runMain_error_iff (parseI : String → Option ℤ)
    (parseF : String → Option ℝ) (lines : List (List String)) (n_cores : ℕ) :
    runMain parseI parseF lines n_cores =
        Except.error LoadError.malformedRecord ↔
      loadEvents parseI parseF lines =
        Except.error LoadError.malformedRecord := by
  unfold runMain
  cases hle : loadEvents parseI parseF lines with
  | error e =>
    dsimp only
    constructor
    · intro h
      injection h with h
      rw [h]
    · intro h
      injection h with h
      rw [h]
  | ok v =>
    obtain ⟨cn, pos, val⟩ := v
    dsimp only
    constructor
    · intro h
      by_cases hc : pos ≠ [] ∧ val ≠ []
      · rw [if_pos hc] at h
        cases h
      · rw [if_neg hc] at h
        cases h
    · intro h
      cases h

/-- C6. Malformed input: the loader (and with it the whole run) fails
with the malformed-record error exactly when some input line does not parse
into the `(label, int, float)` triple — not exactly three whitespace fields,
or an unparseable position or weight; when every line parses, no such error
is raised, and on the error path no output is produced. -/
theorem malformed_input_aborts (parseI : String → Option ℤ)
    (parseF : String → Option ℝ) (lines : List (List String)) (n_cores : ℕ) :
    (loadEvents parseI parseF lines = Except.error LoadError.malformedRecord ↔
      ∃ l ∈ lines, parseLine parseI parseF l = none) ∧
    (runMain parseI parseF lines n_cores =
        Except.error LoadError.malformedRecord ↔
      ∃ l ∈ lines, parseLine parseI parseF l = none) := by
  have h1 := foldlM_loadStep_error parseI parseF lines (none, [], [])
  exact ⟨h1, (runMain_error_iff parseI parseF lines n_cores).trans h1⟩

/-- C7 counterexample. An empty input yields `Except.ok none` — no
output file, but also a silent success: not the `EmptyInputError` report
the claim demands. -/
theorem empty_input_counterexample :
    runMain sampleParseI sampleParseF [] 4 =
      Except.ok none ∧
    (Except.ok none : Except LoadError (Option (List (String × ℤ × ℤ × ℝ)))) ≠
      Except.error LoadError.emptyInput := by
  exact ⟨rfl, by simp⟩

/-- C7 amended. Empty input: the engine writes no output file and
performs no score computation (result `Except.ok none`), but it exits
silently with success — it reports no error at all, in particular no
`EmptyInputError`. -/
theorem empty_input_silent (parseI : String → Option ℤ)
    (parseF : String → Option ℝ) (n_cores : ℕ) :
    runMain parseI parseF [] n_cores = Except.ok none ∧
    ∀ e : LoadError, runMain parseI parseF [] n_cores ≠ Except.error e := by
  refine ⟨rfl, ?_⟩
  intro e h
  rw [show runMain parseI parseF [] n_cores = Except.ok none from rfl] at h
  cases h

/-- From any intermediate state, when every remaining line parses the
reading loop succeeds with all parsed events appended in order to the one
running series, and the label of the last parsed line (if any) replacing
the running label. -/
lemma foldlM_loadStep_ok (parseI : String → Option ℤ)
    (parseF : String → Option ℝ) :
    ∀ (lines : List (List String)) (init : Option String × List ℤ × List ℝ),
      (∀ l ∈ lines, (parseLine parseI parseF l).isSome = true) →
      lines.foldlM (loadStep parseI parseF) init =
        Except.ok
          (((lines.filterMap (parseLine parseI parseF)).map
              fun r => some r.1).getLastD init.1,
           init.2.1 ++ (lines.filterMap (parseLine parseI parseF)).map
              fun r => r.2.1,
           init.2.2 ++ (lines.filterMap (parseLine parseI parseF)).map
              fun r => r.2.2) := by
  intro lines
  induction lines with
  | nil =>
    intro init _
    simp only [List.foldlM_nil, List.filterMap_nil, List.map_nil,
      List.getLastD_nil, List.append_nil]
    rfl
  | cons l ls ih =>
    intro init hall
    obtain ⟨⟨c, d, s⟩, hpl⟩ :=
      Option.isSome_iff_exists.mp (hall l (List.mem_cons_self l ls))
    rw [List.foldlM_cons]
    have hstep : loadStep parseI parseF init l =
        Except.ok (some c, init.2.1 ++ [d], init.2.2 ++ [s]) := by
      simp [loadStep, hpl]
    rw [hstep]
    have hbind : (Except.ok (some c, init.2.1 ++ [d], init.2.2 ++ [s]) >>=
          fun st => ls.foldlM (loadStep parseI parseF) st) =
        ls.foldlM (loadStep parseI parseF)
          (some c, init.2.1 ++ [d], init.2.2 ++ [s]) := rfl
    rw [hbind, ih _ fun l' hl' => hall l' (List.mem_cons_of_mem l hl')]
    rw [List.filterMap_cons_some hpl]
    simp only [List.map_cons, List.getLastD_cons, List.append_assoc,
      List.singleton_append]

/-- C4 amended. The loader builds a *single* series: every parsed event
of every line, regardless of its chromosome label, is appended in input
order to one positions list and one weights list (no deduplication, no
filtering, no per-label grouping), and the one remembered label is the
label of the last line read (`none` when there is none); the output
records are all tagged with that single label. -/
theorem event_loader_single_series (parseI : String → Option ℤ)
    (parseF : String → Option ℝ) (lines : List (List String))
    (hall : ∀ l ∈ lines, (parseLine parseI parseF l).isSome = true) :
    loadEvents parseI parseF lines =
      Except.ok
        (((lines.filterMap (parseLine parseI parseF)).map
            fun r => some r.1).getLastD none,
         (lines.filterMap (parseLine parseI parseF)).map fun r => r.2.1,
         (lines.filterMap (parseLine parseI parseF)).map fun r => r.2.2) := by
  simpa [loadEvents] using
    foldlM_loadStep_ok parseI parseF lines (none, [], []) hall

/-- C4 amended, witness. Two lines with distinct labels `chr1`, `chr2`:
one series holding both events, labelled `chr2`. -/
theorem event_loader_single_series_witness :
    loadEvents sampleParseI sampleParseF
        [["chr1", "1", "1"], ["chr2", "5", "2"]] =
      Except.ok
        ((([["chr1", "1", "1"], ["chr2", "5", "2"]].filterMap
            (parseLine sampleParseI sampleParseF)).map
            fun r => some r.1).getLastD none,
         ([["chr1", "1", "1"], ["chr2", "5", "2"]].filterMap
            (parseLine sampleParseI sampleParseF)).map
            fun r => r.2.1,
         ([["chr1", "1", "1"], ["chr2", "5", "2"]].filterMap
            (parseLine sampleParseI sampleParseF)).map
            fun r => r.2.2) :=
  event_loader_single_series sampleParseI sampleParseF
    [["chr1", "1", "1"], ["chr2", "5", "2"]] (by decide)

/-- C4 counterexample. Two well-formed lines with distinct chromosome
labels `chr1` and `chr2`: the loader does not produce one series per label —
it produces a single mixed series `[1, 5]` whose one label slot holds only
the last label, `chr2`; the `chr1` event at position 1 now belongs to a
series labelled `chr2`. -/
theorem event_loader_counterexample :
    loadEvents sampleParseI sampleParseF
        [["chr1", "1", "1"], ["chr2", "5", "2"]] =
      Except.ok (some "chr2", [1, 5], [0, 0]) ∧
    "chr1" ≠ "chr2" := by
  exact ⟨rfl, by decide⟩

/-! ### The slicing of target positions -/

lemma sliceChunks_nil (size : ℕ) : sliceChunks [] size = [] := by
  rw [sliceChunks]

lemma sliceChunks_cons (p : ℤ) (rest : List ℤ) (size : ℕ) (hs : size ≠ 0) :
    sliceChunks (p :: rest) size =
      (p :: rest).take size :: sliceChunks ((p :: rest).drop size) size := by
  rw [sliceChunks]
  exact dif_neg hs

/-- The slices are a partition: concatenated back, they are the original
list of target positions. -/
lemma sliceChunks_flatten (size : ℕ) (hs : 0 < size) (l : List ℤ) :
    (sliceChunks l size).flatten = l := by
  suffices h : ∀ (n : ℕ) (l : List ℤ), l.length ≤ n →
      (sliceChunks l size).flatten = l from h l.length l le_rfl
  intro n
  induction n with
  | zero =>
    intro l hl
    rw [List.eq_nil_of_length_eq_zero (Nat.le_zero.mp hl), sliceChunks_nil]
    rfl
  | succ n ih =>
    intro l hl
    cases l with
    | nil => rw [sliceChunks_nil]; rfl
    | cons p rest =>
      rw [sliceChunks_cons p rest size hs.ne', List.flatten_cons,
        ih _ (by simp only [List.length_drop]; simp at hl ⊢; omega),
        List.take_append_drop]

/-- The number of slices is `⌈n / size⌉` (as `(n + size - 1) / size`). -/
lemma sliceChunks_length (size : ℕ) (hs : 0 < size) (l : List ℤ) :
    (sliceChunks l size).length = (l.length + size - 1) / size := by
  suffices h : ∀ (n : ℕ) (l : List ℤ), l.length ≤ n →
      (sliceChunks l size).length = (l.length + size - 1) / size from
    h l.length l le_rfl
  intro n
  induction n with
  | zero =>
    intro l hl
    rw [List.eq_nil_of_length_eq_zero (Nat.le_zero.mp hl), sliceChunks_nil]
    simp only [List.length_nil, Nat.zero_add]
    exact (Nat.div_eq_of_lt (by omega)).symm
  | succ n ih =>
    intro l hl
    cases l with
    | nil =>
      rw [sliceChunks_nil]
      simp only [List.length_nil, Nat.zero_add]
      exact (Nat.div_eq_of_lt (by omega)).symm
    | cons p rest =>
      rw [sliceChunks_cons p rest size hs.ne', List.length_cons,
        ih _ (by simp only [List.length_drop]; simp at hl ⊢; omega)]
      rw [List.length_drop]
      rcases le_or_lt size (p :: rest).length with hle | hlt
      · have h1 : (p :: rest).length - size + size - 1 =
            ((p :: rest).length - 1) := by omega
        have h2 : (p :: rest).length + size - 1 =
            ((p :: rest).length - 1) + size := by omega
        rw [h1, h2, Nat.add_div_right _ hs]
      · have h1 : (p :: rest).length - size = 0 := by omega
        rw [h1]
        have h2 : (0 + size - 1) / size = 0 := Nat.div_eq_of_lt (by omega)
        rw [h2]
        have hlen : 1 ≤ (p :: rest).length := by
          simp [List.length_cons]
        have : ((p :: rest).length + size - 1) / size = 1 := by
          apply Nat.div_eq_of_lt_le
          · omega
          · omega
        omega

/-- Every slice is a nonempty range of targets. -/
lemma sliceChunks_ne_nil (size : ℕ) (hs : 0 < size) (l : List ℤ) :
    ∀ c ∈ sliceChunks l size, c ≠ [] := by
  suffices h : ∀ (n : ℕ) (l : List ℤ), l.length ≤ n →
      ∀ c ∈ sliceChunks l size, c ≠ [] from h l.length l le_rfl
  intro n
  induction n with
  | zero =>
    intro l hl c hc
    rw [List.eq_nil_of_length_eq_zero (Nat.le_zero.mp hl), sliceChunks_nil]
      at hc
    cases hc
  | succ n ih =>
    intro l hl c hc
    cases l with
    | nil =>
      rw [sliceChunks_nil] at hc
      cases hc
    | cons p rest =>
      rw [sliceChunks_cons p rest size hs.ne'] at hc
      rcases List.mem_cons.mp hc with rfl | hmem
      · intro hnil
        rcases List.take_eq_nil_iff.mp hnil with h0 | h0
        · exact hs.ne' h0
        · cases h0
      · exact ih _ (by simp only [List.length_drop]; simp at hl ⊢; omega)
          c hmem

/-- C5 counterexample. 3001 sorted targets and 3 workers:
`target_chunk_size = max 1000 (3001 / 3) = 1000`, and the partitioner
creates `⌈3001 / 1000⌉ = 4` chunks — not
`min 3 ⌈3001 / 1000⌉ = min(available_workers, …) = 3` as the claim states
(the `min` applies only to the worker-pool size, not to the chunk count). -/
theorem chunk_partitioner_counterexample :
    (chunkTargets ((List.range 3001).map Int.ofNat) 3).length = 4 ∧
    min 3 ((3001 + 1000 - 1) / 1000) = 3 ∧ (4 : ℕ) ≠ 3 := by
  refine ⟨?_, by norm_num, by norm_num⟩
  rw [chunkTargets, sliceChunks_length _ (by simp)]
  simp

/-- C5 amended. The Chunk Partitioner splits the `N` target positions
into `K = ⌈N / target_chunk_size⌉` contiguous nonempty ranges with
`target_chunk_size = max 1000 (N / available_workers)` (floor division);
the ranges are non-overlapping, in order, and their concatenation is
exactly the input target list.  (`min(available_workers, K)` is the size of
the worker pool, not the number of chunks.) -/
theorem chunk_partitioner_sizes (positions : List ℤ) (n_cores : ℕ) :
    (chunkTargets positions n_cores).flatten = positions ∧
    (chunkTargets positions n_cores).length =
      (positions.length + max 1000 (positions.length / n_cores) - 1) /
        max 1000 (positions.length / n_cores) ∧
    ∀ c ∈ chunkTargets positions n_cores, c ≠ [] := by
  have hs : 0 < max 1000 (positions.length / n_cores) := by
    simp
  exact ⟨sliceChunks_flatten _ hs positions,
    sliceChunks_length _ hs positions,
    sliceChunks_ne_nil _ hs positions⟩

/-! ### Chunk expansion never changes a target's window -/

/-- Zipping the two projected columns of a pair list restores the list. -/
lemma zip_fst_snd (l : List (ℤ × ℝ)) :
    (l.map Prod.fst).zip (l.map Prod.snd) = l := by
  rw [List.zip_map']
  have h : ∀ a ∈ l, (fun a : ℤ × ℝ => (a.1, a.2)) a = id a := fun a _ => rfl
  rw [List.map_congr_left h, List.map_id]

/-- For a target between `lo` and `hi`, the per-target window filter selects
the same events from the `[lo - W, hi + W]`-masked context as from the full
series: the expansion by `W` covers the whole window of the target. -/
lemma relevantEvents_ctx (positions : List ℤ) (values : List ℝ)
    (lo hi p W : ℤ) (hlo : lo ≤ p) (hhi : p ≤ hi) :
    relevantEvents
      (((positions.zip values).filter fun e =>
        decide (lo - W ≤ e.1 ∧ e.1 ≤ hi + W)).map Prod.fst)
      (((positions.zip values).filter fun e =>
        decide (lo - W ≤ e.1 ∧ e.1 ≤ hi + W)).map Prod.snd)
      p W = relevantEvents positions values p W := by
  unfold relevantEvents
  rw [zip_fst_snd, List.filter_filter]
  apply List.filter_congr
  intro e _
  by_cases h : p - W ≤ e.1 ∧ e.1 ≤ p + W
  · have h2 : lo - W ≤ e.1 ∧ e.1 ≤ hi + W := by omega
    simp [h, h2]
  · simp [h]
    omega

/-- The same, for the score. -/
lemma kernelScore_ctx (positions : List ℤ) (values : List ℝ)
    (lo hi p W : ℤ) (hlo : lo ≤ p) (hhi : p ≤ hi) :
    kernelScore
      (((positions.zip values).filter fun e =>
        decide (lo - W ≤ e.1 ∧ e.1 ≤ hi + W)).map Prod.fst)
      (((positions.zip values).filter fun e =>
        decide (lo - W ≤ e.1 ∧ e.1 ≤ hi + W)).map Prod.snd)
      p W = kernelScore positions values p W := by
  unfold kernelScore
  rw [relevantEvents_ctx positions values lo hi p W hlo hhi]

/-- In a sorted chunk, the first entry bounds every target from below. -/
lemma headD_le_of_sorted (cp : List ℤ) (hcp : cp.Sorted (· ≤ ·))
    {p : ℤ} (hp : p ∈ cp) : cp.headD 0 ≤ p := by
  cases cp with
  | nil => cases hp
  | cons a t =>
    rcases List.mem_cons.mp hp with rfl | hmem
    · simp
    · simpa using (List.sorted_cons.mp hcp).1 p hmem

/-- On a nonempty list, `getLastD` ignores the default. -/
lemma getLastD_swap (t : List ℤ) (ht : t ≠ []) (a b : ℤ) :
    t.getLastD a = t.getLastD b := by
  cases t with
  | nil => exact absurd rfl ht
  | cons x xs => rw [List.getLastD_cons, List.getLastD_cons]

/-- In a sorted chunk, the last entry bounds every target from above. -/
lemma le_getLastD_of_sorted (cp : List ℤ) (hcp : cp.Sorted (· ≤ ·))
    {p : ℤ} (hp : p ∈ cp) : p ≤ cp.getLastD 0 := by
  induction cp with
  | nil => cases hp
  | cons a t ih =>
    rw [List.getLastD_cons]
    rcases List.mem_cons.mp hp with rfl | hmem
    · cases t with
      | nil => simp
      | cons b t2 =>
        rw [List.getLastD_cons]
        exact (List.sorted_cons.mp hcp).1 _ (List.getLastD_mem_cons t2 b)
    · have ht : t ≠ [] := List.ne_nil_of_mem hmem
      rw [getLastD_swap t ht a 0]
      exact ih (List.sorted_cons.mp hcp).2 hmem

/-- The central overlap invariant: on a sorted target chunk, the worker run
on the `[min_pos - W, max_pos + W]`-expanded context emits exactly what it
would emit on the full series. -/
lemma expandAndProcess_eq (positions : List ℤ) (values : List ℝ)
    (cp : List ℤ) (W : ℤ) (hcp : cp.Sorted (· ≤ ·)) :
    expandAndProcess positions values cp W =
      process_chunk positions values cp W := by
  unfold expandAndProcess process_chunk
  dsimp only
  apply List.filterMap_congr
  intro p hp
  rw [relevantEvents_ctx positions values (cp.headD 0) (cp.getLastD 0) p W
      (headD_le_of_sorted cp hcp hp) (le_getLastD_of_sorted cp hcp hp),
    kernelScore_ctx positions values (cp.headD 0) (cp.getLastD 0) p W
      (headD_le_of_sorted cp hcp hp) (le_getLastD_of_sorted cp hcp hp)]

/-- Worker results concatenate across target sublists. -/
lemma process_chunk_append (positions : List ℤ) (values : List ℝ)
    (cp1 cp2 : List ℤ) (W : ℤ) :
    process_chunk positions values (cp1 ++ cp2) W =
      process_chunk positions values cp1 W ++
        process_chunk positions values cp2 W := by
  unfold process_chunk
  exact List.filterMap_append cp1 cp2 _

/-- Worker results over a list of target chunks concatenate to the worker
result over the concatenated targets. -/
lemma process_chunk_flatten (positions : List ℤ) (values : List ℝ)
    (chunks : List (List ℤ)) (W : ℤ) :
    (chunks.map fun cp => process_chunk positions values cp W).flatten =
      process_chunk positions values chunks.flatten W := by
  induction chunks with
  | nil => rfl
  | cons c cs ih =>
    rw [List.map_cons, List.flatten_cons, ih, List.flatten_cons,
      process_chunk_append]

/-- Pieces of a sorted concatenation are sorted. -/
lemma sorted_of_flatten_sorted (chunks : List (List ℤ))
    (h : chunks.flatten.Sorted (· ≤ ·)) :
    ∀ c ∈ chunks, c.Sorted (· ≤ ·) := by
  induction chunks with
  | nil =>
    intro c hc
    cases hc
  | cons c cs ih =>
    intro d hd
    rw [List.flatten_cons] at h
    rcases List.mem_cons.mp hd with rfl | hmem
    · exact (List.pairwise_append.mp h).1
    · exact ih (List.pairwise_append.mp h).2.1 d hmem

/-- C1. Chunk-invariance: over a position-sorted series, for every
partitioning of the targets into contiguous nonempty chunks, each expanded
by exactly `W = 73` on each side, the chunked computation produces — pair
for pair, in position order — the very output of the single-chunk (`K = 1`)
computation over the full series (so in particular the position-sorted
multisets of `(position, score)` pairs coincide). -/
theorem chunk_invariance (positions : List ℤ) (values : List ℝ)
    (chunks : List (List ℤ)) (hsort : positions.Sorted (· ≤ ·))
    (hflat : chunks.flatten = positions) (hne : ∀ c ∈ chunks, c ≠ []) :
    chunkedResults positions values chunks WINDOW_SIZE =
      chunkedResults positions values [positions] WINDOW_SIZE := by
  have hparts : ∀ c ∈ chunks, c.Sorted (· ≤ ·) :=
    sorted_of_flatten_sorted chunks (hflat ▸ hsort)
  have hleft : chunkedResults positions values chunks WINDOW_SIZE =
      process_chunk positions values positions WINDOW_SIZE := by
    unfold chunkedResults
    rw [List.map_congr_left fun c hc =>
      expandAndProcess_eq positions values c WINDOW_SIZE (hparts c hc)]
    rw [process_chunk_flatten, hflat]
  have hright : chunkedResults positions values [positions] WINDOW_SIZE =
      process_chunk positions values positions WINDOW_SIZE := by
    unfold chunkedResults
    rw [List.map_cons, List.map_nil, List.flatten_cons, List.flatten_nil,
      List.append_nil]
    exact expandAndProcess_eq positions values positions WINDOW_SIZE hsort
  rw [hleft, hright]

/-- C1 witness. A sorted three-event series split into two chunks
(`[1]` and `[2, 100]`) against the single-chunk run. -/
theorem chunk_invariance_witness :
    List.Sorted (· ≤ ·) [(1 : ℤ), 2, 100] ∧
    chunkedResults [1, 2, 100] [1, 1, 1] [[1], [2, 100]] WINDOW_SIZE =
      chunkedResults [1, 2, 100] [1, 1, 1] [[(1 : ℤ), 2, 100]] WINDOW_SIZE :=
  ⟨by decide,
    chunk_invariance [1, 2, 100] [1, 1, 1] [[1], [2, 100]] (by decide)
      (by decide) (by decide)⟩

/-! ### The aggregator's sort -/

/-- The aggregator's output is non-decreasing in position (the sort key is
the position alone). -/
lemma sortResults_sorted (l : List (ℤ × ℝ)) :
    (sortResults l).Sorted fun a b => a.1 ≤ b.1 := by
  have h := @List.sorted_mergeSort (ℤ × ℝ) (fun a b => decide (a.1 ≤ b.1))
    (fun a b c h1 h2 => by
      simp only [decide_eq_true_eq] at h1 h2 ⊢
      exact le_trans h1 h2)
    (fun a b => by
      simp only [Bool.or_eq_true, decide_eq_true_eq]
      exact le_total a.1 b.1)
    l
  exact h.imp fun hab => by simpa using hab

/-- The aggregator's sort is a permutation: every collected record is kept,
none merged, none dropped. -/
lemma sortResults_perm (l : List (ℤ × ℝ)) : (sortResults l).Perm l :=
  List.mergeSort_perm l _

/-- C8. Output ordering: whatever order the per-chunk result lists
arrive in, the aggregated output is non-decreasing in position with the
position alone as sort key, it retains every record of every chunk
(including duplicates, as a permutation of the concatenation), and any two
arrival orders yield outputs that are permutations of each other. -/
theorem output_ordering (arrived arrived2 : List (List (ℤ × ℝ)))
    (hperm : arrived.Perm arrived2) :
    (aggregate arrived).Sorted (fun a b => a.1 ≤ b.1) ∧
    (aggregate arrived).Perm arrived.flatten ∧
    (aggregate arrived).Perm (aggregate arrived2) := by
  refine ⟨sortResults_sorted _, sortResults_perm _, ?_⟩
  exact (sortResults_perm _).trans
    (hperm.flatten.trans (sortResults_perm _).symm)

/-- C8 witness. Two arrival orders of the same two chunk lists. -/
theorem output_ordering_witness :
    List.Sorted (fun a b => a.1 ≤ b.1) (aggregate [[((1 : ℤ), (1 : ℝ))], []]) ∧
    (aggregate [[((1 : ℤ), (1 : ℝ))], []]).Perm
      ([[((1 : ℤ), (1 : ℝ))], []].flatten) ∧
    (aggregate [[((1 : ℤ), (1 : ℝ))], []]).Perm
      (aggregate [[], [((1 : ℤ), (1 : ℝ))]]) :=
  output_ordering [[(1, 1)], []] [[], [(1, 1)]] (List.Perm.swap [] [(1, 1)] [])

/-! ### Canonical form of a whole run -/

/-- Aligned series pair every position with a weight. -/
lemma exists_pair_mem_zip : ∀ (ps : List ℤ) (vs : List ℝ),
    ps.length = vs.length → ∀ p ∈ ps, ∃ w, (p, w) ∈ ps.zip vs := by
  intro ps
  induction ps with
  | nil =>
    intro vs _ p hp
    cases hp
  | cons a t ih =>
    intro vs hlen p hp
    cases vs with
    | nil => simp at hlen
    | cons w vt =>
      rcases List.mem_cons.mp hp with rfl | hm
      · exact ⟨w, by simp⟩
      · obtain ⟨w2, hw2⟩ := ih vt (by simpa using hlen) p hm
        exact ⟨w2, by simp [hw2]⟩

/-- Every record the worker emits carries the kernel score of its own
position — the score is a function of the position and the context only. -/
lemma mem_process_chunk_graph (positions : List ℤ) (values : List ℝ)
    (cps : List ℤ) (W : ℤ) :
    ∀ x ∈ process_chunk positions values cps W,
      x.2 = kernelScore positions values x.1 W := by
  intro x hx
  rw [process_chunk_eq] at hx
  obtain ⟨p, _, rfl⟩ := List.mem_map.mp hx
  rfl

/-- The concatenated per-chunk results of a run over a sorted series are
exactly the single-pass worker output over the full series. -/
lemma chunkResultLists_flatten (positions : List ℤ) (values : List ℝ)
    (n_cores : ℕ) (hsort : positions.Sorted (· ≤ ·)) :
    (chunkResultLists positions values n_cores).flatten =
      process_chunk positions values positions WINDOW_SIZE := by
  unfold chunkResultLists
  have hs : 0 < max 1000 (positions.length / n_cores) := by simp
  have hflat : (chunkTargets positions n_cores).flatten = positions :=
    sliceChunks_flatten _ hs positions
  have hparts := sorted_of_flatten_sorted _ (hflat ▸ hsort)
  rw [List.map_congr_left fun c hc =>
    expandAndProcess_eq positions values c WINDOW_SIZE (hparts c hc)]
  rw [process_chunk_flatten, hflat]

/-- Two position-sorted permutations of one another whose scores are a
function of the position are equal as lists: sorting by the position alone
is unambiguous because records at equal positions are equal records. -/
lemma eq_of_sorted_perm_graph (f : ℤ → ℝ) (L M : List (ℤ × ℝ))
    (hLM : L.Perm M) (hL : L.Sorted fun a b => a.1 ≤ b.1)
    (hM : M.Sorted fun a b => a.1 ≤ b.1)
    (hgraph : ∀ x ∈ L, x.2 = f x.1) : L = M := by
  have hgM : ∀ x ∈ M, x.2 = f x.1 := fun x hx => hgraph x (hLM.mem_iff.mpr hx)
  have hfstL : (L.map Prod.fst).Sorted (· ≤ ·) :=
    List.Pairwise.map Prod.fst (fun a b h => h) hL
  have hfstM : (M.map Prod.fst).Sorted (· ≤ ·) :=
    List.Pairwise.map Prod.fst (fun a b h => h) hM
  have hfst : L.map Prod.fst = M.map Prod.fst :=
    List.eq_of_perm_of_sorted (hLM.map Prod.fst) hfstL hfstM
  have hgL2 : L.map ((fun p => (p, f p)) ∘ Prod.fst) = L := by
    have h : ∀ x ∈ L, ((fun p => (p, f p)) ∘ Prod.fst) x = id x := by
      intro x hx
      cases x with
      | mk x1 x2 => simpa using (hgraph (x1, x2) hx).symm
    rw [List.map_congr_left h, List.map_id]
  have hgM2 : M.map ((fun p => (p, f p)) ∘ Prod.fst) = M := by
    have h : ∀ x ∈ M, ((fun p => (p, f p)) ∘ Prod.fst) x = id x := by
      intro x hx
      cases x with
      | mk x1 x2 => simpa using (hgM (x1, x2) hx).symm
    rw [List.map_congr_left h, List.map_id]
  calc L = L.map ((fun p => (p, f p)) ∘ Prod.fst) := hgL2.symm
    _ = (L.map Prod.fst).map fun p => (p, f p) := (List.map_map _ _ _).symm
    _ = (M.map Prod.fst).map fun p => (p, f p) := by rw [hfst]
    _ = M.map ((fun p => (p, f p)) ∘ Prod.fst) := List.map_map _ _ _
    _ = M := hgM2

/-- C9. One output record per input event: over a sorted, aligned
series every target handed to a worker is an event position of its own
chunk's expanded context (it lies within distance 0 of itself), so no
target's window is empty, and the final sorted output has exactly the input
positions — duplicates included — as its position column; in particular the
output record count equals the input event count. -/
theorem one_record_per_event (positions : List ℤ) (values : List ℝ)
    (n_cores : ℕ) (hsort : positions.Sorted (· ≤ ·))
    (hlen : positions.length = values.length) :
    (calculate_nsm_occupancy positions values n_cores).map Prod.fst =
      positions ∧
    (calculate_nsm_occupancy positions values n_cores).length =
      positions.length := by
  have hwin : ∀ p ∈ positions,
      relevantEvents positions values p WINDOW_SIZE ≠ [] := by
    intro p hp
    obtain ⟨w, hw⟩ := exists_pair_mem_zip positions values hlen p hp
    have hmem : (p, w) ∈ relevantEvents positions values p WINDOW_SIZE := by
      rw [relevantEvents]
      refine List.mem_filter.mpr ⟨hw, ?_⟩
      simp only [decide_eq_true_eq, WINDOW_SIZE]
      omega
    exact List.ne_nil_of_mem hmem
  have hS : process_chunk positions values positions WINDOW_SIZE =
      positions.map fun p =>
        (p, kernelScore positions values p WINDOW_SIZE) := by
    rw [process_chunk_eq]
    congr 1
    apply List.filter_eq_self.mpr
    intro p hp
    cases hre : relevantEvents positions values p WINDOW_SIZE with
    | nil => exact absurd hre (hwin p hp)
    | cons e es => simp [hre]
  have hSfst : (process_chunk positions values positions WINDOW_SIZE).map
      Prod.fst = positions := by
    rw [hS, List.map_map]
    have h : ∀ p ∈ positions,
        (Prod.fst ∘ fun p =>
          (p, kernelScore positions values p WINDOW_SIZE)) p = id p :=
      fun p _ => rfl
    rw [List.map_congr_left h, List.map_id]
  unfold calculate_nsm_occupancy aggregate
  rw [chunkResultLists_flatten positions values n_cores hsort]
  have hperm : ((sortResults (process_chunk positions values positions
      WINDOW_SIZE)).map Prod.fst).Perm positions := by
    have h := (sortResults_perm (process_chunk positions values positions
      WINDOW_SIZE)).map Prod.fst
    rwa [hSfst] at h
  have hfstSorted : ((sortResults (process_chunk positions values positions
      WINDOW_SIZE)).map Prod.fst).Sorted (· ≤ ·) :=
    List.Pairwise.map Prod.fst (fun a b h => h) (sortResults_sorted _)
  have hfsteq : (sortResults (process_chunk positions values positions
      WINDOW_SIZE)).map Prod.fst = positions :=
    List.eq_of_perm_of_sorted hperm hfstSorted hsort
  have hlen2 : (sortResults (process_chunk positions values positions
      WINDOW_SIZE)).length = positions.length := by
    rw [sortResults, List.length_mergeSort, hS, List.length_map]
  exact ⟨hfsteq, hlen2⟩

/-- C9 witness. The run over the sorted aligned series `[1, 2]`. -/
theorem one_record_per_event_witness :
    (calculate_nsm_occupancy [(1 : ℤ), 2] [(1 : ℝ), 1] 1).map Prod.fst =
      [(1 : ℤ), 2] ∧
    (calculate_nsm_occupancy [(1 : ℤ), 2] [(1 : ℝ), 1] 1).length =
      ([(1 : ℤ), 2]).length :=
  one_record_per_event [1, 2] [1, 1] 1 (by decide) rfl

/-- C10. Determinism of the whole run: over a sorted series, any two
runs — each with its own worker/core count (hence its own chunk size) and
its own arrival order of the per-chunk result lists — produce the identical
final record sequence: both equal the position-sorted single-pass output,
and records at duplicate positions carry equal scores, so the
position-only sort cannot distinguish them. -/
theorem run_determinism (positions : List ℤ) (values : List ℝ)
    (c1 c2 : ℕ) (A1 A2 : List (List (ℤ × ℝ)))
    (hsort : positions.Sorted (· ≤ ·))
    (h1 : A1.Perm (chunkResultLists positions values c1))
    (h2 : A2.Perm (chunkResultLists positions values c2)) :
    aggregate A1 = aggregate A2 := by
  have key : ∀ (c : ℕ) (A : List (List (ℤ × ℝ))),
      A.Perm (chunkResultLists positions values c) →
      (aggregate A).Perm
        (process_chunk positions values positions WINDOW_SIZE) := by
    intro c A hA
    exact (sortResults_perm _).trans (hA.flatten.trans
      (List.Perm.of_eq (chunkResultLists_flatten positions values c hsort)))
  apply eq_of_sorted_perm_graph
    (fun p => kernelScore positions values p WINDOW_SIZE)
  · exact (key c1 A1 h1).trans (key c2 A2 h2).symm
  · exact sortResults_sorted _
  · exact sortResults_sorted _
  · intro x hx
    exact mem_process_chunk_graph positions values positions WINDOW_SIZE x
      ((key c1 A1 h1).mem_iff.mp hx)

/-- C10 witness. The sorted series `[1, 2]` run with core counts 1 and
2 and the dispatch-order arrivals. -/
theorem run_determinism_witness :
    aggregate (chunkResultLists [(1 : ℤ), 2] [(1 : ℝ), 1] 1) =
      aggregate (chunkResultLists [(1 : ℤ), 2] [(1 : ℝ), 1] 2) :=
  run_determinism [1, 2] [1, 1] 1 2
    (chunkResultLists [1, 2] [1, 1] 1) (chunkResultLists [1, 2] [1, 1] 2)
    (by decide) (List.Perm.refl _) (List.Perm.refl _)

end NSM
